import Mathlib

/-!
Verification of the LaTeX project splitter (`snippets/splitter.py`).

The development shallowly embeds the splitter core: the section-record data
model, the structural validator, the content extractor with recursive
`\input` expansion, and the split orchestration with filename allocation.
The filesystem is modelled as an association list from paths (component
lists, POSIX separators) to file contents; a file may be readable (its
text) or unreadable (reads raise, carrying an error message). All
definitions are executable and mirror the Python source line by line;
Python string operations that the Lean kernel cannot reduce are
reimplemented structurally over `List Char`.
-/

namespace LatexSplit

/-- A path is its list of components (POSIX, already parsed).
`pathlib` drops empty and `"."` components when parsing. -/
abbrev Path := List String

/-- Contents of one file: readable text, or a file whose read raises
(modeling `read_text` raising `OSError`; the message is the exception text). -/
inductive FileData where
  | readable (text : String)
  | unreadable (msg : String)
deriving DecidableEq, Repr

/-- The filesystem: an ordered association list path -> contents. The list
order models directory-scan order for recursive search. -/
abbrev FS := List (Path × FileData)

def fsLookup (fs : FS) (p : Path) : Option FileData :=
  (fs.find? (fun e => decide (e.1 = p))).map (fun e => e.2)

/-- `Path.exists()`: there is a file at `p`. -/
def fsExists (fs : FS) (p : Path) : Bool :=
  (fsLookup fs p).isSome

/-- `Path.is_dir()`: a directory exists at `p` iff some file lies strictly
below it (the model identifies directories with their contents). -/
def isDir (fs : FS) (p : Path) : Bool :=
  fs.any (fun e => decide (p <+: e.1) && decide (p ≠ e.1))

/-- `Path(...).write_text(...)`: overwrite in place if the file exists,
otherwise append a fresh entry. -/
def fsWrite (fs : FS) (p : Path) (text : String) : FS :=
  if fs.any (fun e => decide (e.1 = p)) then
    fs.map (fun e => if e.1 = p then (p, FileData.readable text) else e)
  else fs ++ [(p, FileData.readable text)]

def applyWrites (fs : FS) (ws : List (Path × String)) : FS :=
  ws.foldl (fun a w => fsWrite a w.1 w.2) fs

/-- `base_path.rglob(name)` with a bare filename pattern, keeping the first
hit that `is_file()`: the first entry strictly under `base` whose last
component is `name`, in filesystem order. -/
def rglobFind (fs : FS) (base : Path) (name : String) : Option Path :=
  (fs.find? (fun e =>
    decide (base <+: e.1) && decide (e.1 ≠ base) && decide (e.1.getLast? = some name))).map
    (fun e => e.1)

/-! ### Character-level string helpers (Python `str` operations) -/

/-- `str.replace('\\', '/')` (one-char pattern, so a per-character map). -/
def normSeps (s : String) : String :=
  String.mk (s.data.map (fun c => if c = '\\' then '/' else c))

def splitCompsGo : List Char → List Char → List String
  | acc, [] => [String.mk acc.reverse]
  | acc, c :: tl =>
    if c = '/' then String.mk acc.reverse :: splitCompsGo [] tl
    else splitCompsGo (c :: acc) tl

/-- Parse a path string into components, as `pathlib` does: split on `/`,
drop empty and `"."` components (`".."` is kept literally). -/
def pathComps (s : String) : Path :=
  (splitCompsGo [] s.data).filter (fun c => c ≠ "" && c ≠ ".")

def strEndsWith (s suffixStr : String) : Bool :=
  suffixStr.data.isSuffixOf s.data

/-- `s[:-4]` for stripping the `.tex` extension. -/
def dropRightStr (s : String) (n : Nat) : String :=
  String.mk (s.data.take (s.data.length - n))

def stripTex (s : String) : String :=
  if strEndsWith s ".tex" then dropRightStr s 4 else s

def containsChar (s : String) (c : Char) : Bool :=
  s.data.contains c

def splitLinesGo : List Char → List Char → List (List Char)
  | acc, [] => [acc.reverse]
  | acc, c :: tl =>
    if c = '\n' then acc.reverse :: splitLinesGo [] tl
    else splitLinesGo (c :: acc) tl

/-- Python `str.splitlines()` (newline-only model): split on `'\n'`,
without a trailing empty line when the text ends in `'\n'`. -/
def splitLines (s : String) : List String :=
  match s.data with
  | [] => []
  | cs =>
    let raw := (splitLinesGo [] cs).map String.mk
    if cs.getLast? = some '\n' then raw.dropLast else raw

/-! ### Decimal rendering of numbers (Python `str(int)` on naturals) -/

def digitChar (d : Nat) : Char :=
  match d with
  | 0 => '0' | 1 => '1' | 2 => '2' | 3 => '3' | 4 => '4'
  | 5 => '5' | 6 => '6' | 7 => '7' | 8 => '8' | _ => '9'

def digitVal (c : Char) : Nat :=
  match c with
  | '0' => 0 | '1' => 1 | '2' => 2 | '3' => 3 | '4' => 4
  | '5' => 5 | '6' => 6 | '7' => 7 | '8' => 8 | _ => 9

def natReprAux : Nat → Nat → List Char
  | 0, _ => []
  | fuel + 1, n =>
    if n < 10 then [digitChar n]
    else natReprAux fuel (n / 10) ++ [digitChar (n % 10)]

/-- Decimal rendering of a natural number. -/
def natRepr (n : Nat) : String :=
  String.mk (natReprAux (n + 1) n)

/-! ### Section records -/

/-- One section record (§3 of the spec): the fields the splitter core reads.
`page` and `label` are carried by the real records but unused by the core,
so they are omitted from the embedding. -/
structure Entry where
  level : String
  number : Option String
  title : String
  file : Option String
  line : Option Nat
deriving DecidableEq, Repr

/-- Python truthiness of an optional string (`None` and `""` are falsy). -/
def strTruthy : Option String → Bool
  | none => false
  | some s => decide (s ≠ "")

/-- Python truthiness of an optional line number (`None` and `0` are falsy). -/
def lineTruthy : Option Nat → Bool
  | none => false
  | some v => decide (v ≠ 0)

/-- `level_hierarchy = {'chapter': 1, 'section': 2, 'subsection': 3}` with
`.get(level, 99)`. -/
def level_rank (lvl : String) : Nat :=
  if lvl = "chapter" then 1
  else if lvl = "section" then 2
  else if lvl = "subsection" then 3
  else 99

/-- Rendering an optional string in an f-string (`None` prints as "None"). -/
def optStr : Option String → String
  | none => "None"
  | some s => s

/-- Rendering an optional line number in an f-string. -/
def lineStr : Option Nat → String
  | none => "None"
  | some v => natRepr v

/-! ### `_sanitize_filename` -/

def invalidFilenameChar (c : Char) : Bool :=
  c = '<' || c = '>' || c = ':' || c = '"' || c = '/' || c = '\\' ||
  c = '|' || c = '?' || c = '*'

/-- Fixpoint of `while '__' in s: s = s.replace('__', '_')`: every maximal
run of underscores collapses to a single one. -/
def squeezeUnd : List Char → List Char
  | [] => []
  | [c] => [c]
  | a :: b :: tl =>
    if a = '_' ∧ b = '_' then squeezeUnd (b :: tl)
    else a :: squeezeUnd (b :: tl)

/-- `str.strip('_')`: drop underscores from both ends. -/
def stripUnd (cs : List Char) : List Char :=
  ((cs.dropWhile (fun c => c = '_')).reverse.dropWhile (fun c => c = '_')).reverse

/-- `LatexProjectSplitter._sanitize_filename`. -/
def sanitize_filename (title : String) : String :=
  let s1 := title.data.map (fun c => if c = ' ' || invalidFilenameChar c then '_' else c)
  String.mk (stripUnd (squeezeUnd s1))

/-! ### `_find_file_path` -/

/-- `LatexProjectSplitter._find_file_path`: normalize separators, try the
path relative to `base` first, then relative to the parent of
`relativeTo` (guarded by `relativeTo.is_dir()`), then a recursive filename
search when the path has no slash. -/
def find_file_path (fs : FS) (base : Path) (filePath : String)
    (relativeTo : Option Path) : Option Path :=
  let fp := normSeps filePath
  let direct := base ++ pathComps fp
  if fsExists fs direct then some direct
  else
    let viaRel : Option Path :=
      match relativeTo with
      | some r =>
        if isDir fs r then
          let rp := r.dropLast ++ pathComps fp
          if fsExists fs rp then some rp else none
        else none
      | none => none
    match viaRel with
    | some rp => some rp
    | none =>
      if containsChar fp '/' then none
      else rglobFind fs base fp

/-! ### `\input` directive matching (`re.search(r'\\input\{([^}]+)\}', line)`) -/

def inputKey : List Char := ['\\', 'i', 'n', 'p', 'u', 't', '\x7b']

/-- Leftmost match of the directive: at each position try to read
`\input{`, then one or more non-`}` characters, then `}`; on failure
advance one character (exactly `re.search` semantics for this pattern). -/
def findInputArgAux : List Char → Option (List Char)
  | [] => none
  | c :: tl =>
    if inputKey.isPrefixOf (c :: tl) then
      let after := (c :: tl).drop inputKey.length
      let arg := after.takeWhile (fun d => d ≠ '\x7d')
      if arg = [] then findInputArgAux tl
      else if after.drop arg.length = [] then findInputArgAux tl
      else some arg
    else findInputArgAux tl

def findInputArg (line : String) : Option String :=
  (findInputArgAux line.data).map String.mk

/-- The lookup key for an input: append `.tex` unless the path already ends
in `.tex`. -/
def texName (orig : String) : String :=
  if strEndsWith orig ".tex" then orig else orig ++ ".tex"

/-- The marker-comment path: the resolved path relative to `base` when
possible (separators normalized, `.tex` stripped), otherwise the original
argument of the directive. -/
def markerPath (base : Path) (orig : String) (p : Path) : String :=
  if base <+: p then
    stripTex (normSeps (String.intercalate "/" (p.drop base.length)))
  else orig

/-! ### `expand_inputs`

The Python closure recurses with `depth + 1` and cuts off at `depth > 10`;
the embedding recurses on `fuel = 11 - depth`, so `fuel = 0` is exactly
`depth > 10`. `guard` is the `processed_inputs` set (a list without
duplicates); it is threaded through the recursion exactly as the mutated
set is, including the entry leaked when a resolved file fails to read
(the `add` precedes `read_text` in the `try` block). -/

def expandAux (fs : FS) (base : Path) : Nat → List String → String → Path →
    List String × List String
  | 0, guard, line, _ => ([line], guard)
  | fuel + 1, guard, line, cur =>
    match findInputArg line with
    | none => ([line], guard)
    | some orig =>
      let inputFile := texName orig
      if inputFile ∈ guard then ([line], guard)
      else
        match find_file_path fs base inputFile (some cur) with
        | none => ([line], guard)
        | some p =>
          match fsLookup fs p with
          | some (FileData.readable text) =>
            let pr := (splitLines text).foldl
              (fun acc l =>
                let r := expandAux fs base fuel acc.2 l p
                (acc.1 ++ r.1, r.2)) ([], inputFile :: guard)
            (("% Expanded from: \\input\x7b" ++ markerPath base orig p ++ "\x7d") :: pr.1,
              pr.2.erase inputFile)
          | _ => ([line], inputFile :: guard)

/-- The loop `for input_line in input_lines: expanded.extend(expand_inputs(...))`,
threading the `processed_inputs` set. -/
def expandLines (fs : FS) (base : Path) (fuel : Nat) (guard : List String)
    (ls : List String) (cur : Path) : List String × List String :=
  ls.foldl
    (fun acc l =>
      let r := expandAux fs base fuel acc.2 l cur
      (acc.1 ++ r.1, r.2)) ([], guard)

/-- `expand_inputs(line, current_file, depth)` with its Python depth
argument. -/
def expand_inputs (fs : FS) (base : Path) (guard : List String)
    (line : String) (cur : Path) (depth : Nat) : List String × List String :=
  expandAux fs base (11 - depth) guard line cur

/-! ### `_extract_section_content` -/

/-- The end-of-section scan: walk the records after the current one, stop at
the first whose rank is at most the current rank; if it is in the same file
and its line is truthy, end there, else end at end of file. -/
def endLineLoop (rest : List Entry) (curRank : Nat) (efile : Option String)
    (flen : Nat) : Nat :=
  match rest with
  | [] => flen
  | e :: tl =>
    if level_rank e.level ≤ curRank then
      if e.file = efile ∧ lineTruthy e.line then (e.line.getD 0) - 1 else flen
    else endLineLoop tl curRank efile flen

def missingInfoPlaceholder (entry : Entry) : String :=
  "% " ++ entry.level ++ ": " ++ entry.title ++ "\n% No source file information available\n"

def notFoundPlaceholder (entry : Entry) : String :=
  "% " ++ entry.level ++ ": " ++ entry.title ++ "\n% Source file not found: " ++
    optStr entry.file ++ "\n"

def readErrorPlaceholder (entry : Entry) (msg : String) : String :=
  "% " ++ entry.level ++ ": " ++ entry.title ++ "\n% Error reading file: " ++ msg ++ "\n"

def invalidLinePlaceholder (entry : Entry) : String :=
  "% " ++ entry.level ++ ": " ++ entry.title ++ "\n% Invalid line number: " ++
    lineStr entry.line ++ "\n"

/-- `LatexProjectSplitter._extract_section_content`. -/
def extract_section_content (fs : FS) (base : Path) (entry : Entry)
    (allEntries : List Entry) (currentIndex : Nat) : String :=
  if ¬ strTruthy entry.file ∨ entry.line = none then
    missingInfoPlaceholder entry
  else
    let efile := optStr entry.file
    let direct := base ++ pathComps efile
    let fpO : Option Path :=
      if fsExists fs direct then some direct
      else find_file_path fs base efile none
    match fpO with
    | none => notFoundPlaceholder entry
    | some fp =>
      match fsLookup fs fp with
      | some (FileData.readable text) =>
        let lines := splitLines text
        let l := entry.line.getD 0
        if l = 0 ∨ lines.length < l then invalidLinePlaceholder entry
        else
          let startLine := l - 1
          let curRank := level_rank entry.level
          let endLine :=
            endLineLoop (allEntries.drop (currentIndex + 1)) curRank entry.file lines.length
          let contentLines := (lines.take endLine).drop startLine
          let res := expandLines fs base 11 [] contentLines fp
          String.intercalate "\n" res.1 ++ "\n"
      | some (FileData.unreadable msg) => readErrorPlaceholder entry msg
      | none => readErrorPlaceholder entry "file vanished"

/-! ### `_validate_structure` -/

structure Issue where
  entry : Entry
  index : Nat
  level : String
  title : String
  issue : String
  severity : String
  affected_file : Option String
  affected_line : Option Nat
  source_file : Option String
  source_line : Option Nat
deriving DecidableEq, Repr

def issueMsgNested (entry inter : Entry) : String :=
  "Section '" ++ entry.title ++ "' has nested content in different file. " ++
  "Content from '" ++ optStr inter.file ++ "' (line " ++ lineStr inter.line ++ ") " ++
  "may not be included when extracting from '" ++ optStr entry.file ++ "' (line " ++
  lineStr entry.line ++ "). " ++
  "The algorithm only extracts content from the file where the section command is located."

def issueMsgTail (entry inter : Entry) : String :=
  "Section '" ++ entry.title ++ "' may have content in different file. " ++
  "Content from '" ++ optStr inter.file ++ "' (line " ++ lineStr inter.line ++ ") " ++
  "comes after this section but is in a different file than '" ++ optStr entry.file ++
  "'. This content may not be included when extracting."

def mkIssue (entry : Entry) (i : Nat) (inter : Entry) (msg : String) : Issue :=
  { entry := entry
    index := i
    level := entry.level
    title := entry.title
    issue := msg
    severity := "warning"
    affected_file := inter.file
    affected_line := inter.line
    source_file := entry.file
    source_line := entry.line }

/-- The issue condition for a record `inter` nested under `entry`:
deeper rank, a truthy file, and a file different from the section's. -/
def hazardCond (curRank : Nat) (entry : Entry) (inter : Entry) : Bool :=
  decide (level_rank inter.level > curRank) && strTruthy inter.file &&
    decide (inter.file ≠ entry.file)

/-- The `else` branch: scan the tail, collecting hazards, stopping at the
first record of rank at most `curRank` (which cannot fire an issue). -/
def collectTail (entry : Entry) (i : Nat) (curRank : Nat) :
    List (Nat × Entry) → List Issue
  | [] => []
  | (_, e) :: tl =>
    if hazardCond curRank entry e then
      mkIssue entry i e (issueMsgTail entry e) :: collectTail entry i curRank tl
    else if level_rank e.level ≤ curRank then []
    else collectTail entry i curRank tl

/-- The issues one record contributes (`for i, entry in enumerate(data)`
body of `_validate_structure`). -/
def entryIssues (data : List Entry) (i : Nat) (entry : Entry) : List Issue :=
  let curRank := level_rank entry.level
  if ¬ strTruthy entry.file then []
  else
    let tail := data.enum.drop (i + 1)
    match tail.find? (fun p => decide (level_rank p.2.level ≤ curRank)) with
    | some j =>
      (tail.filter (fun p => decide (p.1 < j.1))).filterMap (fun p =>
        if hazardCond curRank entry p.2 then
          some (mkIssue entry i p.2 (issueMsgNested entry p.2))
        else none)
    | none => collectTail entry i curRank tail

/-- `LatexProjectSplitter._validate_structure`. -/
def validate_structure_core (data : List Entry) : List Issue :=
  (data.enum.map (fun p => entryIssues data p.1 p.2)).flatten

/-- The subsection filter shared by `split` and `validate_structure`. -/
def filterRecords (includeSubsections : Bool) (data : List Entry) : List Entry :=
  if includeSubsections then data
  else data.filter (fun e => decide (e.level ≠ "subsection"))

/-- `LatexProjectSplitter.validate_structure` (public wrapper). -/
def validate_structure (data : List Entry) (includeSubsections : Bool) : List Issue :=
  validate_structure_core (filterRecords includeSubsections data)

/-! ### `split` -/

/-- The fallback name when the sanitized title is empty:
`f"{entry['level']}_{entry['number']}"`. -/
def fallbackName (entry : Entry) : String :=
  entry.level ++ "_" ++ optStr entry.number

/-- The collision loop `while filename in filename_counts: filename =
f"{base}_{counter}"; counter += 1`, fueled: `used.length + 1` tries always
suffice. -/
def freshAux (used : List String) (baseName : String) : Nat → Nat → String
  | _, 0 => baseName
  | k, fuel + 1 =>
    let cand := baseName ++ "_" ++ natRepr k
    if cand ∈ used then freshAux used baseName (k + 1) fuel else cand

def freshName (used : List String) (baseName : String) : String :=
  if baseName ∈ used then freshAux used baseName 1 (used.length + 1) else baseName

/-- The per-record loop of `split`: derive a name, make it unique, extract
the content, write the file (later records see the write), and record the
mapping entry. Returns the writes in order and the title-to-path pairs in
order. -/
def splitLoop (base outdir : Path) (allEntries : List Entry) :
    FS → Nat → List String → List Entry → List (Path × String) × List (String × Path)
  | _, _, _, [] => ([], [])
  | fs, i, used, e :: tl =>
    let s := sanitize_filename e.title
    let base0 := if s = "" then fallbackName e else s
    let nm := freshName used base0
    let filename := nm ++ ".tex"
    let content := extract_section_content fs base e allEntries i
    let opath := outdir ++ [filename]
    let pr := splitLoop base outdir allEntries (fsWrite fs opath content) (i + 1) (nm :: used) tl
    ((opath, content) :: pr.1, (e.title, opath) :: pr.2)

/-- `LatexProjectSplitter.split`: filter, then the per-record loop.
(Validation only emits warnings and never alters the outputs, so it does
not appear in the returned value; `validate_structure_core` models it.)
Returns (writes in order, title-to-output-path mapping in order). -/
def split (fs : FS) (base : Path) (data : List Entry) (outdir : Path)
    (includeSubsections : Bool) : List (Path × String) × List (String × Path) :=
  let filtered := filterRecords includeSubsections data
  splitLoop base outdir filtered fs 0 [] filtered

/-! ## Shared lemmas -/

/-- The end-of-section scan equals: find the first later record of rank at
most the current rank; end at its line if it is in the same file with a
truthy line, else at end of file. -/
theorem endLineLoop_spec (rest : List Entry) (curRank : Nat) (efile : Option String)
    (flen : Nat) :
    endLineLoop rest curRank efile flen =
      match rest.find? (fun e => decide (level_rank e.level ≤ curRank)) with
      | none => flen
      | some e => if e.file = efile ∧ lineTruthy e.line then e.line.getD 0 - 1 else flen := by
  induction rest with
  | nil => rfl
  | cons e tl ih =>
    by_cases h : level_rank e.level ≤ curRank
    · rw [endLineLoop, if_pos h, List.find?_cons_of_pos _ (by simpa using h)]
    · rw [endLineLoop, if_neg h, List.find?_cons_of_neg _ (by simpa using h), ih]

theorem find?_middle (pre : List Entry) (e : Entry) (tl : List Entry)
    (p : Entry → Bool) (hpre : ∀ x ∈ pre, ¬ p x) (he : p e = true) :
    (pre ++ e :: tl).find? p = some e := by
  rw [List.find?_append, List.find?_eq_none.mpr hpre, Option.none_or,
    List.find?_cons_of_pos _ he]

/-! ## C1 and C4: the boundary example records -/

def recA : Entry := ⟨"chapter", some "1", "A", some "f1", some 10⟩

def recB : Entry := ⟨"section", some "1.1", "B", some "f1", some 20⟩

def recC : Entry := ⟨"section", some "1.2", "C", some "f2", some 5⟩

def recD : Entry := ⟨"chapter", some "2", "D", some "f1", some 30⟩

/-- The 40-line file `f1` (lines "l1" .. "l40") and a 3-line `f2`. -/
def f1text : String :=
  String.intercalate "\n" ((List.range 40).map (fun i => "l" ++ natRepr (i + 1))) ++ "\n"

def fsBoundary : FS :=
  [(["proj", "f1"], FileData.readable f1text),
   (["proj", "f2"], FileData.readable "x1\nx2\nx3\n")]

/-- C1: extraction of a record ends at the line of the first later record of
rank at most the record's rank when that record is in the same file (with a
line number); if no such record exists or it lies in a different file, the
end is the end of the record's file. On the concrete layout
A(f1,10,chapter), B(f1,20,section), C(f2,5,section), D(f1,30,chapter),
extracting A yields exactly lines 10 through 29 of f1, ignoring C. -/
theorem C1_boundary_same_file_scoping :
    (∀ (rest : List Entry) (curRank : Nat) (efile : Option String) (flen : Nat),
      endLineLoop rest curRank efile flen =
        match rest.find? (fun e => decide (level_rank e.level ≤ curRank)) with
        | none => flen
        | some e => if e.file = efile ∧ lineTruthy e.line then e.line.getD 0 - 1 else flen) ∧
    extract_section_content fsBoundary ["proj"] recA [recA, recB, recC, recD] 0 =
      String.intercalate "\n" ((List.range 20).map (fun i => "l" ++ natRepr (i + 10))) ++ "\n" :=
  ⟨endLineLoop_spec, by decide⟩

/-- C4: on the boundary example, validation reports exactly one issue,
attributed to A (index 0), with affected file f2 and severity warning. -/
theorem C4_validator_reports_one_issue :
    (validate_structure [recA, recB, recC, recD] false).map
      (fun i => (i.index, i.title, i.affected_file, i.severity)) =
      [(0, "A", some "f2", "warning")] := by
  decide

/-- C9: a later same-or-higher-rank record in the same file bounds the span
only when its line is present and non-zero; with the line missing or zero
the end falls back to the file length. -/
theorem C9_line_truthiness_bound :
    ∀ (pre : List Entry) (e : Entry) (tl : List Entry) (curRank : Nat)
      (efile : Option String) (flen : Nat),
      (∀ x ∈ pre, curRank < level_rank x.level) →
      level_rank e.level ≤ curRank →
      e.file = efile →
      ((e.line = none ∨ e.line = some 0 →
          endLineLoop (pre ++ e :: tl) curRank efile flen = flen) ∧
        (∀ v, e.line = some v → v ≠ 0 →
          endLineLoop (pre ++ e :: tl) curRank efile flen = v - 1)) := by
  intro pre e tl curRank efile flen hpre he hf
  have hfind : (pre ++ e :: tl).find? (fun x => decide (level_rank x.level ≤ curRank)) =
      some e := by
    refine find?_middle pre e tl _ (fun x hx => ?_) (by simpa using he)
    simpa using Nat.not_le.mpr (hpre x hx)
  constructor
  · intro hl
    rw [endLineLoop_spec, hfind]
    have : lineTruthy e.line = false := by rcases hl with h | h <;> simp [h, lineTruthy]
    simp [this]
  · intro v hv hv0
    rw [endLineLoop_spec, hfind]
    have ht : lineTruthy (some v) = true := by simp [lineTruthy, hv0]
    simp [hf, hv, ht]

/-- C9 witness. -/
theorem C9_line_truthiness_bound_witness :
    endLineLoop [recB, ⟨"chapter", none, "Z", some "f1", none⟩] 1 (some "f1") 40 = 40 ∧
    endLineLoop [recB, recD] 1 (some "f1") 40 = 29 := by
  constructor
  · exact (C9_line_truthiness_bound [recB] ⟨"chapter", none, "Z", some "f1", none⟩ [] 1
      (some "f1") 40 (by decide) (by decide) (by decide)).1 (Or.inl rfl)
  · exact (C9_line_truthiness_bound [recB] recD [] 1 (some "f1") 40
      (by decide) (by decide) (by decide)).2 30 rfl (by decide)

/-- C10: when the bounding same-file record's line number is at most the
current record's own line number, extraction returns exactly the single
trailing newline (an empty content span), rather than failing. -/
theorem C10_inverted_bound_single_newline :
    ∀ (fs : FS) (base : Path) (entry : Entry) (allEntries : List Entry) (idx : Nat)
      (text : String) (l v : Nat) (pre : List Entry) (e : Entry) (tl : List Entry),
      strTruthy entry.file = true →
      entry.line = some l → 1 ≤ l → l ≤ (splitLines text).length →
      fsLookup fs (base ++ pathComps (optStr entry.file)) = some (FileData.readable text) →
      allEntries.drop (idx + 1) = pre ++ e :: tl →
      (∀ x ∈ pre, level_rank entry.level < level_rank x.level) →
      level_rank e.level ≤ level_rank entry.level →
      e.file = entry.file → e.line = some v → v ≠ 0 → v ≤ l →
      extract_section_content fs base entry allEntries idx = "\n" := by
  intro fs base entry allEntries idx text l v pre e tl hft hl hl1 hllen hlook hdrop hpre he
    hef hev hv0 hvl
  have hcond : ¬ (¬ strTruthy entry.file ∨ entry.line = none) := by simp [hft, hl]
  have hex : fsExists fs (base ++ pathComps (optStr entry.file)) = true := by
    simp [fsExists, hlook]
  have hend : endLineLoop (allEntries.drop (idx + 1)) (level_rank entry.level) entry.file
      (splitLines text).length = v - 1 := by
    rw [hdrop, endLineLoop_spec,
      find?_middle pre e tl _ (fun x hx => by simpa using Nat.not_le.mpr (hpre x hx))
        (by simpa using he)]
    simp [hef, lineTruthy, hv0, hev]
  have hrange : ¬ ((entry.line.getD 0) = 0 ∨ (splitLines text).length < entry.line.getD 0) := by
    rw [hl]; simp only [Option.getD_some]; omega
  have hnil : (((splitLines text).take (v - 1)).drop (entry.line.getD 0 - 1)) = [] := by
    apply List.drop_eq_nil_of_le
    rw [List.length_take]
    rw [hl]; simp only [Option.getD_some]; omega
  unfold extract_section_content
  rw [if_neg hcond]
  simp only [hex, if_true, hlook, hend, hnil]
  rw [if_neg hrange]
  rfl

def recE1 : Entry := ⟨"chapter", some "1", "E1", some "f1", some 5⟩

def recE2 : Entry := ⟨"chapter", some "2", "E2", some "f1", some 3⟩

def fsInverted : FS := [(["proj", "f1"], FileData.readable "a\nb\nc\nd\ne\nf\ng\nh\n")]

/-- C10 witness: a concrete record whose bounding record lies on an earlier
line of the same file. -/
theorem C10_inverted_bound_single_newline_witness :
    extract_section_content fsInverted ["proj"] recE1 [recE1, recE2] 0 = "\n" :=
  C10_inverted_bound_single_newline fsInverted ["proj"] recE1 [recE1, recE2] 0
    "a\nb\nc\nd\ne\nf\ng\nh\n" 5 3 [] recE2 [] (by decide) rfl (by decide) (by decide)
    (by decide) rfl (by simp) (by decide) (by decide) rfl (by decide) (by decide)

/-! ## C2: input resolution order -/

/-- Modelled from the claim's words (C2 / spec section 4.2 step 6): resolve
the target relative to the file currently being expanded FIRST, then
relative to the project root, then via recursive filename search; the
first resolution yielding an existing file is used. Written only to be
compared with `find_file_path`, which is the code's resolver. -/
def find_file_path_claimed (fs : FS) (base : Path) (filePath : String)
    (relativeTo : Option Path) : Option Path :=
  let fp := normSeps filePath
  let viaRel : Option Path :=
    match relativeTo with
    | some r =>
      let rp := r.dropLast ++ pathComps fp
      if fsExists fs rp then some rp else none
    | none => none
  match viaRel with
  | some rp => some rp
  | none =>
    let direct := base ++ pathComps fp
    if fsExists fs direct then some direct
    else rglobFind fs base fp

/-- Two same-named files, one at the project root and one next to the file
being expanded. -/
def fsResolve : FS :=
  [(["root", "b.tex"], FileData.readable "ROOT B"),
   (["root", "sub", "a.tex"], FileData.readable "\\input\x7bb\x7d"),
   (["root", "sub", "b.tex"], FileData.readable "SUB B")]

/-- C2 counterexample: the code resolves `\input{b}` from `root/sub/a.tex`
to the project-root `root/b.tex`, not to `root/sub/b.tex` as the claimed
current-file-first order would; the expansion observably inlines the root
file's content. -/
theorem C2_resolution_order_counterexample :
    find_file_path fsResolve ["root"] "b.tex" (some ["root", "sub", "a.tex"]) =
      some ["root", "b.tex"] ∧
    find_file_path_claimed fsResolve ["root"] "b.tex" (some ["root", "sub", "a.tex"]) =
      some ["root", "sub", "b.tex"] ∧
    some (["root", "b.tex"] : Path) ≠ some (["root", "sub", "b.tex"] : Path) ∧
    expandAux fsResolve ["root"] 11 [] "\\input\x7bb\x7d" ["root", "sub", "a.tex"] =
      (["% Expanded from: \\input\x7bb\x7d", "ROOT B"], []) := by
  refine ⟨by decide, by decide, by decide, by decide⟩

/-- C2 amended: the path (with `.tex` appended unless already present) is
resolved relative to the project root FIRST; then relative to the parent of
the current file, but only when the current file path is itself an existing
directory (never the case when expanding from a regular file); then, when
the path contains no slash, via recursive filename search under the root. -/
theorem C2_resolution_order_amended :
    (∀ (fs : FS) (base : Path) (fp : String) (rel : Option Path),
      fsExists fs (base ++ pathComps (normSeps fp)) = true →
      find_file_path fs base fp rel = some (base ++ pathComps (normSeps fp))) ∧
    (∀ (fs : FS) (base : Path) (fp : String) (r : Path),
      fsExists fs (base ++ pathComps (normSeps fp)) = false →
      isDir fs r = true →
      fsExists fs (r.dropLast ++ pathComps (normSeps fp)) = true →
      find_file_path fs base fp (some r) = some (r.dropLast ++ pathComps (normSeps fp))) ∧
    (∀ (fs : FS) (base : Path) (fp : String) (r : Path),
      fsExists fs (base ++ pathComps (normSeps fp)) = false →
      isDir fs r = false →
      find_file_path fs base fp (some r) =
        if containsChar (normSeps fp) '/' then none
        else rglobFind fs base (normSeps fp)) := by
  refine ⟨?_, ?_, ?_⟩
  · intro fs base fp rel h
    unfold find_file_path
    simp [h]
  · intro fs base fp r hdir hisdir hrel
    unfold find_file_path
    simp [hdir, hisdir, hrel]
  · intro fs base fp r hdir hisdir
    unfold find_file_path
    simp [hdir, hisdir]

/-- A directory `root/sub/inner` (it contains a file), used to exercise the
dead-in-practice `is_dir` branch of the resolver. -/
def fsDirCase : FS :=
  [(["root", "sub", "x"], FileData.readable "X"),
   (["root", "sub", "inner", "y"], FileData.readable "Y")]

/-- C2 amendment witness: concrete uses of all three resolution facts. -/
theorem C2_resolution_order_amended_witness :
    find_file_path fsResolve ["root"] "b.tex" (some ["root", "sub", "a.tex"]) =
      some ["root", "b.tex"] ∧
    find_file_path fsDirCase ["root"] "x" (some ["root", "sub", "inner"]) =
      some ["root", "sub", "x"] ∧
    find_file_path fsResolve ["root"] "c.tex" (some ["root", "sub", "a.tex"]) = none := by
  refine ⟨?_, ?_, ?_⟩
  · have h := C2_resolution_order_amended.1 fsResolve ["root"] "b.tex"
      (some ["root", "sub", "a.tex"]) (by decide)
    exact h.trans (by decide)
  · have h := C2_resolution_order_amended.2.1 fsDirCase ["root"] "x" ["root", "sub", "inner"]
      (by decide) (by decide) (by decide)
    exact h.trans (by decide)
  · have h := C2_resolution_order_amended.2.2 fsResolve ["root"] "c.tex"
      ["root", "sub", "a.tex"] (by decide) (by decide)
    exact h.trans (by decide)

/-! ## C3: expansion termination, depth cap, cycle guard -/

theorem fsLookup_mem {fs : FS} {p : Path} {fd : FileData}
    (h : fsLookup fs p = some fd) : (p, fd) ∈ fs := by
  unfold fsLookup at h
  cases hf : fs.find? (fun e => decide (e.1 = p)) with
  | none => rw [hf] at h; cases h
  | some e =>
    rw [hf] at h
    have hm := List.mem_of_find?_eq_some hf
    have hp : e.1 = p := by simpa using List.find?_some hf
    have h2 : e.2 = fd := by simpa using h
    have : e = (p, fd) := by
      cases e; simp_all
    rwa [this] at hm

theorem fsExists_of_mem {fs : FS} {p : Path} {fd : FileData}
    (h : (p, fd) ∈ fs) : fsExists fs p = true := by
  unfold fsExists fsLookup
  cases hf : fs.find? (fun e => decide (e.1 = p)) with
  | none =>
    exfalso
    exact absurd (by simp) (List.find?_eq_none.mp hf (p, fd) h)
  | some e => simp [hf]

theorem rglobFind_exists {fs : FS} {base : Path} {nm : String} {p : Path}
    (h : rglobFind fs base nm = some p) : fsExists fs p = true := by
  unfold rglobFind at h
  cases hf : fs.find? (fun e =>
      decide (base <+: e.1) && decide (e.1 ≠ base) && decide (e.1.getLast? = some nm)) with
  | none => rw [hf] at h; cases h
  | some e =>
    rw [hf] at h
    have hm := List.mem_of_find?_eq_some hf
    have hp : e.1 = p := by simpa using h
    have hm2 : (p, e.2) ∈ fs := by
      rw [← hp]
      exact hm
    exact fsExists_of_mem hm2

theorem find_file_path_exists {fs : FS} {base : Path} {fp : String} {rel : Option Path}
    {p : Path} (h : find_file_path fs base fp rel = some p) : fsExists fs p = true := by
  unfold find_file_path at h
  by_cases h1 : fsExists fs (base ++ pathComps (normSeps fp)) = true
  · simp only [h1, if_true] at h
    cases h
    exact h1
  · rw [Bool.not_eq_true] at h1
    simp only [h1, Bool.false_eq_true, if_false] at h
    cases hrel : rel with
    | none =>
      rw [hrel] at h
      simp only at h
      by_cases hsl : containsChar (normSeps fp) '/' = true
      · simp [hsl] at h
      · rw [Bool.not_eq_true] at hsl
        simp only [hsl, Bool.false_eq_true, if_false] at h
        exact rglobFind_exists h
    | some r =>
      rw [hrel] at h
      simp only at h
      by_cases hd : isDir fs r = true
      · simp only [hd, if_true] at h
        by_cases h2 : fsExists fs (r.dropLast ++ pathComps (normSeps fp)) = true
        · simp only [h2, if_true] at h
          cases h
          exact h2
        · rw [Bool.not_eq_true] at h2
          simp only [h2, Bool.false_eq_true, if_false] at h
          by_cases hsl : containsChar (normSeps fp) '/' = true
          · simp [hsl] at h
          · rw [Bool.not_eq_true] at hsl
            simp only [hsl, Bool.false_eq_true, if_false] at h
            exact rglobFind_exists h
      · rw [Bool.not_eq_true] at hd
        simp only [hd, Bool.false_eq_true, if_false] at h
        by_cases hsl : containsChar (normSeps fp) '/' = true
        · simp [hsl] at h
        · rw [Bool.not_eq_true] at hsl
          simp only [hsl, Bool.false_eq_true, if_false] at h
          exact rglobFind_exists h

def isReadableFD : FileData → Bool
  | FileData.readable _ => true
  | FileData.unreadable _ => false

/-- No file of the filesystem raises on read. -/
abbrev noUnreadable (fs : FS) : Prop := ∀ e ∈ fs, isReadableFD e.2 = true

/-- With every file readable, one expansion step restores the guard set it
was given (the `processed_inputs.remove` after the recursive walk). -/
theorem expandAux_guard_restore (fs : FS) (base : Path) (hnou : noUnreadable fs) :
    ∀ (fuel : Nat) (guard : List String) (line : String) (cur : Path),
      (expandAux fs base fuel guard line cur).2 = guard := by
  intro fuel
  induction fuel with
  | zero => intro g l c; rfl
  | succ f ih =>
    intro g line cur
    rw [expandAux]
    cases hfa : findInputArg line with
    | none => rfl
    | some orig =>
      simp only
      by_cases hg : texName orig ∈ g
      · rw [if_pos hg]
      · rw [if_neg hg]
        cases hfp : find_file_path fs base (texName orig) (some cur) with
        | none => rfl
        | some p =>
          simp only
          cases hlk : fsLookup fs p with
          | none =>
            have := find_file_path_exists hfp
            rw [fsExists, hlk] at this
            cases this
          | some fd =>
            cases fd with
            | readable text =>
              simp only
              have hfold : ∀ (ls : List String) (a gg : List String),
                  (ls.foldl (fun acc l =>
                    let r := expandAux fs base f acc.2 l p
                    (acc.1 ++ r.1, r.2)) (a, gg)).2 = gg := by
                intro ls
                induction ls with
                | nil => intro a gg; rfl
                | cons l tl ihl =>
                  intro a gg
                  rw [List.foldl_cons]
                  have hr : (expandAux fs base f gg l p).2 = gg := ih gg l p
                  simp only [hr]
                  exact ihl _ gg
              simp only [hfold]
              exact List.erase_cons_head ..
            | unreadable m =>
              exfalso
              have hm := fsLookup_mem hlk
              have := hnou (p, FileData.unreadable m) hm
              simp [isReadableFD] at this

def fsCycle : FS := [(["proj", "a.tex"], FileData.readable "\\input\x7ba\x7d")]

def recCycle : Entry := ⟨"chapter", some "1", "Cy", some "a.tex", some 1⟩

def fsSibling : FS :=
  [(["proj", "main.tex"],
    FileData.readable "\\chapter\x7bM\x7d\n\\input\x7ba\x7d\n\\input\x7ba\x7d\n"),
   (["proj", "a.tex"], FileData.readable "body")]

def recSibling : Entry := ⟨"chapter", some "1", "M", some "main.tex", some 1⟩

/-- C3: extraction always terminates (the embedding is total by
construction); beyond depth 10 a directive line is left untouched; a file
whose name is on the active expansion path is not re-entered; with readable
files the guard entry is removed once a file's expansion completes; and on
a concrete self-including file the directive is left unexpanded while a
file included twice as siblings is expanded both times. -/
theorem C3_expansion_cycle_safety :
    (∀ (fs : FS) (base : Path) (guard : List String) (line : String) (cur : Path)
       (depth : Nat), 10 < depth →
      expand_inputs fs base guard line cur depth = ([line], guard)) ∧
    (∀ (fs : FS) (base : Path) (fuel : Nat) (guard : List String) (line : String)
       (cur : Path) (orig : String),
      findInputArg line = some orig → texName orig ∈ guard →
      expandAux fs base fuel guard line cur = ([line], guard)) ∧
    (∀ (fs : FS) (base : Path), noUnreadable fs →
      ∀ (fuel : Nat) (guard : List String) (line : String) (cur : Path),
        (expandAux fs base fuel guard line cur).2 = guard) ∧
    extract_section_content fsCycle ["proj"] recCycle [recCycle] 0 =
      "% Expanded from: \\input\x7ba\x7d\n\\input\x7ba\x7d\n" ∧
    extract_section_content fsSibling ["proj"] recSibling [recSibling] 0 =
      "\\chapter\x7bM\x7d\n% Expanded from: \\input\x7ba\x7d\nbody\n% Expanded from: \\input\x7ba\x7d\nbody\n" := by
  refine ⟨?_, ?_, ?_, by decide, by decide⟩
  · intro fs base guard line cur depth hd
    unfold expand_inputs
    have h0 : 11 - depth = 0 := by omega
    rw [h0]
    rfl
  · intro fs base fuel guard line cur orig h1 h2
    cases fuel with
    | zero => rfl
    | succ f =>
      rw [expandAux, h1]
      simp only
      rw [if_pos h2]
  · intro fs base hnou
    exact expandAux_guard_restore fs base hnou

/-- C3 witness: the depth cap, the guard hit, and guard restoration at
concrete inputs. -/
theorem C3_expansion_cycle_safety_witness :
    expand_inputs fsCycle ["proj"] [] "\\input\x7ba\x7d" ["proj", "a.tex"] 11 =
      (["\\input\x7ba\x7d"], []) ∧
    expandAux fsCycle ["proj"] 5 ["a.tex"] "\\input\x7ba\x7d" ["proj", "a.tex"] =
      (["\\input\x7ba\x7d"], ["a.tex"]) ∧
    (expandAux fsSibling ["proj"] 11 [] "\\input\x7ba\x7d" ["proj", "main.tex"]).2 = [] := by
  refine ⟨?_, ?_, ?_⟩
  · exact C3_expansion_cycle_safety.1 fsCycle ["proj"] [] "\\input\x7ba\x7d"
      ["proj", "a.tex"] 11 (by omega)
  · exact C3_expansion_cycle_safety.2.1 fsCycle ["proj"] 5 ["a.tex"] "\\input\x7ba\x7d"
      ["proj", "a.tex"] "a" (by decide) (by decide)
  · exact C3_expansion_cycle_safety.2.2.1 fsSibling ["proj"] (by decide) 11 []
      "\\input\x7ba\x7d" ["proj", "main.tex"]

/-! ## C5: per-record extraction never fails, degrading to comment placeholders -/

/-- Scanner for "every line of the string starts with `%`": the flag is
true at the start of a line. -/
def commentScan : Bool → List Char → Bool
  | _, [] => true
  | true, c :: tl => decide (c = '%') && commentScan false tl
  | false, c :: tl => if c = '\n' then commentScan true tl else commentScan false tl

def commentOnly (s : String) : Bool := commentScan true s.data

theorem commentScan_true_cons (c : Char) (l : List Char) :
    commentScan true (c :: l) = (decide (c = '%') && commentScan false l) := rfl

theorem commentScan_false_cons (c : Char) (l : List Char) :
    commentScan false (c :: l) =
      if c = '\n' then commentScan true l else commentScan false l := rfl

theorem commentScan_false_append {cs : List Char} (rest : List Char) (h : '\n' ∉ cs) :
    commentScan false (cs ++ rest) = commentScan false rest := by
  induction cs with
  | nil => rfl
  | cons c tl ih =>
    have hc : ¬ (c = '\n') := fun e => h (e ▸ List.mem_cons_self c tl)
    have h2 : '\n' ∉ tl := fun m => h (List.mem_cons_of_mem c m)
    rw [List.cons_append, commentScan_false_cons, if_neg hc]
    exact ih h2

theorem digitChar_ne_nl (d : Nat) : digitChar d ≠ '\n' := by
  unfold digitChar
  split <;> decide

theorem natReprAux_no_nl (fuel n : Nat) : '\n' ∉ natReprAux fuel n := by
  induction fuel generalizing n with
  | zero => simp [natReprAux]
  | succ f ih =>
    rw [natReprAux]
    by_cases h : n < 10
    · simp only [if_pos h, List.mem_singleton]
      intro e
      exact digitChar_ne_nl n e.symm
    · simp only [if_neg h, List.mem_append, List.mem_singleton]
      rintro (hm | hm)
      · exact ih (n / 10) hm
      · exact digitChar_ne_nl (n % 10) hm.symm

theorem lineStr_no_nl (o : Option Nat) : '\n' ∉ (lineStr o).data := by
  cases o with
  | none => decide
  | some v => exact natReprAux_no_nl (v + 1) v

/-- A two-line comment block (each interpolated piece newline-free, second
line newline-terminated) is comment-only. -/
theorem commentScan_two_lines (a b : List Char) (ha : '\n' ∉ a) (hb : '\n' ∉ b) :
    commentScan true ('%' :: a ++ '\n' :: '%' :: (b ++ ['\n'])) = true := by
  rw [List.cons_append, commentScan_true_cons, commentScan_false_append _ ha,
    commentScan_false_cons, if_pos rfl, commentScan_true_cons,
    commentScan_false_append _ hb]
  decide

theorem commentOnly_missing (entry : Entry) (hl : '\n' ∉ entry.level.data)
    (ht : '\n' ∉ entry.title.data) :
    commentOnly (missingInfoPlaceholder entry) = true := by
  unfold commentOnly missingInfoPlaceholder
  have hdt : ("% " ++ entry.level ++ ": " ++ entry.title ++
      "\n% No source file information available\n").data =
      '%' :: ((' ' :: entry.level.data) ++ (':' :: ' ' :: entry.title.data)) ++
        '\n' :: '%' :: ((" No source file information available").data ++ ['\n']) := by
    simp [String.data_append]
  rw [hdt]
  refine commentScan_two_lines _ _ ?_ (by decide)
  intro m
  simp only [List.mem_append, List.mem_cons] at m
  rcases m with (h | h) | (h | h | h) <;> first
    | cases h
    | exact hl h
    | exact ht h

theorem commentOnly_notFound (entry : Entry) (hl : '\n' ∉ entry.level.data)
    (ht : '\n' ∉ entry.title.data) (hf : '\n' ∉ (optStr entry.file).data) :
    commentOnly (notFoundPlaceholder entry) = true := by
  unfold commentOnly notFoundPlaceholder
  have hdt : ("% " ++ entry.level ++ ": " ++ entry.title ++
      "\n% Source file not found: " ++ optStr entry.file ++ "\n").data =
      '%' :: ((' ' :: entry.level.data) ++ (':' :: ' ' :: entry.title.data)) ++
        '\n' :: '%' :: (((" Source file not found: ").data ++ (optStr entry.file).data) ++
          ['\n']) := by
    simp [String.data_append]
  rw [hdt]
  refine commentScan_two_lines _ _ ?_ ?_
  · intro m
    simp only [List.mem_append, List.mem_cons] at m
    rcases m with (h | h) | (h | h | h) <;> first
      | cases h
      | exact hl h
      | exact ht h
  · intro m
    rcases List.mem_append.mp m with h | h
    · revert h
      decide
    · exact hf h

theorem commentOnly_readError (entry : Entry) (msg : String) (hl : '\n' ∉ entry.level.data)
    (ht : '\n' ∉ entry.title.data) (hm : '\n' ∉ msg.data) :
    commentOnly (readErrorPlaceholder entry msg) = true := by
  unfold commentOnly readErrorPlaceholder
  have hdt : ("% " ++ entry.level ++ ": " ++ entry.title ++
      "\n% Error reading file: " ++ msg ++ "\n").data =
      '%' :: ((' ' :: entry.level.data) ++ (':' :: ' ' :: entry.title.data)) ++
        '\n' :: '%' :: (((" Error reading file: ").data ++ msg.data) ++ ['\n']) := by
    simp [String.data_append]
  rw [hdt]
  refine commentScan_two_lines _ _ ?_ ?_
  · intro m
    simp only [List.mem_append, List.mem_cons] at m
    rcases m with (h | h) | (h | h | h) <;> first
      | cases h
      | exact hl h
      | exact ht h
  · intro m
    rcases List.mem_append.mp m with h | h
    · revert h
      decide
    · exact hm h

theorem commentOnly_invalidLine (entry : Entry) (hl : '\n' ∉ entry.level.data)
    (ht : '\n' ∉ entry.title.data) :
    commentOnly (invalidLinePlaceholder entry) = true := by
  unfold commentOnly invalidLinePlaceholder
  have hdt : ("% " ++ entry.level ++ ": " ++ entry.title ++
      "\n% Invalid line number: " ++ lineStr entry.line ++ "\n").data =
      '%' :: ((' ' :: entry.level.data) ++ (':' :: ' ' :: entry.title.data)) ++
        '\n' :: '%' :: (((" Invalid line number: ").data ++ (lineStr entry.line).data) ++
          ['\n']) := by
    simp [String.data_append]
  rw [hdt]
  refine commentScan_two_lines _ _ ?_ ?_
  · intro m
    simp only [List.mem_append, List.mem_cons] at m
    rcases m with (h | h) | (h | h | h) <;> first
      | cases h
      | exact hl h
      | exact ht h
  · intro m
    rcases List.mem_append.mp m with h | h
    · revert h
      decide
    · exact lineStr_no_nl entry.line h

theorem splitLoop_writes_length (base outdir : Path) (allEntries : List Entry) :
    ∀ (rest : List Entry) (fs : FS) (i : Nat) (used : List String),
      (splitLoop base outdir allEntries fs i used rest).1.length = rest.length := by
  intro rest
  induction rest with
  | nil => intro fs i used; rfl
  | cons e tl ih =>
    intro fs i used
    rw [splitLoop]
    simp only [List.length_cons]
    rw [ih]

/-- C5: per-record extraction is total and degrades every failure to a
placeholder: missing file/line info, unresolvable file, unreadable file,
or an out-of-range line each yield the corresponding comment placeholder
(comment-only whenever the interpolated record fields contain no newline),
and the split still writes one file per filtered record. -/
theorem C5_extraction_error_handling :
    (∀ (fs : FS) (base : Path) (entry : Entry) (allEntries : List Entry) (idx : Nat),
      (¬ strTruthy entry.file ∨ entry.line = none) →
      extract_section_content fs base entry allEntries idx = missingInfoPlaceholder entry) ∧
    (∀ (fs : FS) (base : Path) (entry : Entry) (allEntries : List Entry) (idx : Nat),
      strTruthy entry.file = true → entry.line ≠ none →
      fsExists fs (base ++ pathComps (optStr entry.file)) = false →
      find_file_path fs base (optStr entry.file) none = none →
      extract_section_content fs base entry allEntries idx = notFoundPlaceholder entry) ∧
    (∀ (fs : FS) (base : Path) (entry : Entry) (allEntries : List Entry) (idx : Nat)
       (msg : String),
      strTruthy entry.file = true → entry.line ≠ none →
      fsLookup fs (base ++ pathComps (optStr entry.file)) =
        some (FileData.unreadable msg) →
      extract_section_content fs base entry allEntries idx = readErrorPlaceholder entry msg) ∧
    (∀ (fs : FS) (base : Path) (entry : Entry) (allEntries : List Entry) (idx : Nat)
       (text : String),
      strTruthy entry.file = true → entry.line ≠ none →
      fsLookup fs (base ++ pathComps (optStr entry.file)) =
        some (FileData.readable text) →
      (entry.line.getD 0 = 0 ∨ (splitLines text).length < entry.line.getD 0) →
      extract_section_content fs base entry allEntries idx = invalidLinePlaceholder entry) ∧
    (∀ entry : Entry, '\n' ∉ entry.level.data → '\n' ∉ entry.title.data →
      commentOnly (missingInfoPlaceholder entry) = true ∧
      ('\n' ∉ (optStr entry.file).data → commentOnly (notFoundPlaceholder entry) = true) ∧
      (∀ msg : String, '\n' ∉ msg.data →
        commentOnly (readErrorPlaceholder entry msg) = true) ∧
      commentOnly (invalidLinePlaceholder entry) = true) ∧
    (∀ (fs : FS) (base : Path) (data : List Entry) (outdir : Path) (inc : Bool),
      (split fs base data outdir inc).1.length = (filterRecords inc data).length) := by
  refine ⟨?_, ?_, ?_, ?_, ?_, ?_⟩
  · intro fs base entry allEntries idx h
    unfold extract_section_content
    rw [if_pos h]
  · intro fs base entry allEntries idx hft hline hex hfind
    have hcond : ¬ (¬ strTruthy entry.file ∨ entry.line = none) := by simp [hft, hline]
    unfold extract_section_content
    rw [if_neg hcond]
    simp only [hex, Bool.false_eq_true, if_false, hfind]
  · intro fs base entry allEntries idx msg hft hline hlk
    have hcond : ¬ (¬ strTruthy entry.file ∨ entry.line = none) := by simp [hft, hline]
    have hex : fsExists fs (base ++ pathComps (optStr entry.file)) = true := by
      simp [fsExists, hlk]
    unfold extract_section_content
    rw [if_neg hcond]
    simp only [hex, if_true, hlk]
  · intro fs base entry allEntries idx text hft hline hlk hrange
    have hcond : ¬ (¬ strTruthy entry.file ∨ entry.line = none) := by simp [hft, hline]
    have hex : fsExists fs (base ++ pathComps (optStr entry.file)) = true := by
      simp [fsExists, hlk]
    unfold extract_section_content
    rw [if_neg hcond]
    simp only [hex, if_true, hlk]
    rw [if_pos hrange]
  · intro entry hl ht
    exact ⟨commentOnly_missing entry hl ht,
      fun hf => commentOnly_notFound entry hl ht hf,
      fun msg hm => commentOnly_readError entry msg hl ht hm,
      commentOnly_invalidLine entry hl ht⟩
  · intro fs base data outdir inc
    unfold split
    exact splitLoop_writes_length base outdir _ _ fs 0 []

def recMissing : Entry := ⟨"chapter", some "1", "T", none, some 3⟩

def recNotFound : Entry := ⟨"chapter", some "1", "T", some "nope.tex", some 3⟩

def recUnreadable : Entry := ⟨"chapter", some "1", "T", some "f", some 1⟩

def recBadLine : Entry := ⟨"chapter", some "1", "T", some "f", some 9⟩

def fsPermDenied : FS := [(["p", "f"], FileData.unreadable "Permission denied")]

def fsTwoLines : FS := [(["p", "f"], FileData.readable "a\nb")]

/-- C5 witness: each degraded case at a concrete record and filesystem. -/
theorem C5_extraction_error_handling_witness :
    extract_section_content [] ["p"] recMissing [recMissing] 0 =
      "% chapter: T\n% No source file information available\n" ∧
    extract_section_content [] ["p"] recNotFound [recNotFound] 0 =
      "% chapter: T\n% Source file not found: nope.tex\n" ∧
    extract_section_content fsPermDenied ["p"] recUnreadable [recUnreadable] 0 =
      "% chapter: T\n% Error reading file: Permission denied\n" ∧
    extract_section_content fsTwoLines ["p"] recBadLine [recBadLine] 0 =
      "% chapter: T\n% Invalid line number: 9\n" ∧
    commentOnly "% chapter: T\n% Source file not found: nope.tex\n" = true ∧
    (split fsPermDenied ["p"] [recUnreadable, recMissing] ["out"] false).1.length = 2 := by
  refine ⟨?_, ?_, ?_, ?_, ?_, ?_⟩
  · exact (C5_extraction_error_handling.1 [] ["p"] recMissing [recMissing] 0
      (by decide)).trans (by decide)
  · exact (C5_extraction_error_handling.2.1 [] ["p"] recNotFound [recNotFound] 0
      (by decide) (by decide) (by decide) (by decide)).trans (by decide)
  · exact (C5_extraction_error_handling.2.2.1 fsPermDenied ["p"] recUnreadable
      [recUnreadable] 0 "Permission denied" (by decide) (by decide) (by decide)).trans
      (by decide)
  · exact (C5_extraction_error_handling.2.2.2.1 fsTwoLines ["p"] recBadLine [recBadLine] 0
      "a\nb" (by decide) (by decide) (by decide) (by decide)).trans (by decide)
  · have h := (C5_extraction_error_handling.2.2.2.2.1 recNotFound (by decide)
      (by decide)).2.1 (by decide)
    have e : notFoundPlaceholder recNotFound =
        "% chapter: T\n% Source file not found: nope.tex\n" := by decide
    rw [← e]
    exact h
  · exact (C5_extraction_error_handling.2.2.2.2.2 fsPermDenied ["p"]
      [recUnreadable, recMissing] ["out"] false).trans (by decide)

/-! ## C7: subsection filtering -/

theorem splitLoop_mapping_titles (base outdir : Path) (allEntries : List Entry) :
    ∀ (rest : List Entry) (fs : FS) (i : Nat) (used : List String),
      (splitLoop base outdir allEntries fs i used rest).2.map (fun m => m.1) =
        rest.map (fun e => e.title) := by
  intro rest
  induction rest with
  | nil => intro fs i used; rfl
  | cons e tl ih =>
    intro fs i used
    rw [splitLoop]
    simp only [List.map_cons]
    rw [ih]

/-- C7: with `include_subsections = false` exactly the records whose level
is the string "subsection" are dropped (all other levels pass through, and
no output file derives from a subsection record); with it `true` every
record is processed and written like the rest. -/
theorem C7_subsection_filter :
    (∀ (data : List Entry) (e : Entry),
      e ∈ filterRecords false data ↔ e ∈ data ∧ e.level ≠ "subsection") ∧
    (∀ data : List Entry, filterRecords true data = data) ∧
    (∀ (fs : FS) (base : Path) (data : List Entry) (outdir : Path),
      (split fs base data outdir false).2.map (fun m => m.1) =
        (data.filter (fun e => decide (e.level ≠ "subsection"))).map (fun e => e.title)) ∧
    (∀ (fs : FS) (base : Path) (data : List Entry) (outdir : Path),
      (split fs base data outdir true).2.map (fun m => m.1) =
        data.map (fun e => e.title)) ∧
    (∀ (fs : FS) (base : Path) (data : List Entry) (outdir : Path),
      (split fs base data outdir false).1.length =
        (data.filter (fun e => decide (e.level ≠ "subsection"))).length) := by
  refine ⟨?_, ?_, ?_, ?_, ?_⟩
  · intro data e
    simp [filterRecords, List.mem_filter]
  · intro data
    rfl
  · intro fs base data outdir
    unfold split
    rw [splitLoop_mapping_titles]
    rfl
  · intro fs base data outdir
    unfold split
    rw [splitLoop_mapping_titles]
    rfl
  · intro fs base data outdir
    unfold split
    rw [splitLoop_writes_length]
    rfl

/-! ## C6: filename collision suffixing -/

def digitsVal (cs : List Char) : Nat := cs.foldl (fun a c => 10 * a + digitVal c) 0

theorem digitsVal_append (cs : List Char) (c : Char) :
    digitsVal (cs ++ [c]) = 10 * digitsVal cs + digitVal c := by
  unfold digitsVal
  rw [List.foldl_append]
  rfl

theorem digitVal_digitChar {d : Nat} (h : d < 10) : digitVal (digitChar d) = d := by
  interval_cases d <;> rfl

theorem digitsVal_natReprAux : ∀ fuel n : Nat, n < fuel →
    digitsVal (natReprAux fuel n) = n := by
  intro fuel
  induction fuel with
  | zero => intro n h; omega
  | succ f ih =>
    intro n h
    rw [natReprAux]
    by_cases h10 : n < 10
    · rw [if_pos h10]
      show digitsVal [digitChar n] = n
      unfold digitsVal
      simp [digitVal_digitChar h10]
    · rw [if_neg h10, digitsVal_append]
      have h1 : n / 10 < f := by
        have h2 := Nat.div_lt_self (by omega : 0 < n) (by omega : 1 < 10)
        omega
      rw [ih (n / 10) h1, digitVal_digitChar (Nat.mod_lt n (by omega))]
      omega

theorem stringDataInj {s t : String} (h : s.data = t.data) : s = t := by
  cases s
  cases t
  exact congrArg String.mk h

theorem natRepr_inj {m n : Nat} (h : (natRepr m).data = (natRepr n).data) : m = n := by
  have hv := congrArg digitsVal h
  have e1 : digitsVal (natRepr m).data = m := digitsVal_natReprAux (m + 1) m (by omega)
  have e2 : digitsVal (natRepr n).data = n := digitsVal_natReprAux (n + 1) n (by omega)
  rw [e1, e2] at hv
  exact hv

/-- The name the allocator assigns to the i-th member of a run of records
sharing one sanitized base: the base itself, then base_1, base_2, ... -/
def nameAt (b : String) (i : Nat) : String :=
  if i = 0 then b else b ++ "_" ++ natRepr i

theorem nameAt_zero (b : String) : nameAt b 0 = b := rfl

theorem nameAt_pos {b : String} {i : Nat} (h : i ≠ 0) :
    nameAt b i = b ++ "_" ++ natRepr i := if_neg h

theorem nameAt_ne_base {b : String} {i : Nat} (h : i ≠ 0) : nameAt b i ≠ b := by
  rw [nameAt_pos h]
  intro e
  have hlen := congrArg (fun s => s.data.length) e
  simp [String.data_append] at hlen

theorem nameAt_inj {b : String} {i j : Nat} (h : nameAt b i = nameAt b j) : i = j := by
  by_cases hi : i = 0 <;> by_cases hj : j = 0
  · omega
  · exact absurd (h.symm.trans (hi ▸ nameAt_zero b)) (nameAt_ne_base hj)
  · exact absurd (h.trans (hj ▸ nameAt_zero b)) (nameAt_ne_base hi)
  · rw [nameAt_pos hi, nameAt_pos hj] at h
    have hd := congrArg String.data h
    simp only [String.data_append] at hd
    have h2 := List.append_cancel_left hd
    exact natRepr_inj h2

theorem freshAux_spec (used : List String) (b : String) :
    ∀ (t fuel j : Nat), t < fuel →
      (∀ m, m < t → (b ++ "_" ++ natRepr (j + m)) ∈ used) →
      (b ++ "_" ++ natRepr (j + t)) ∉ used →
      freshAux used b j fuel = b ++ "_" ++ natRepr (j + t) := by
  intro t
  induction t with
  | zero =>
    intro fuel j hf hmem hnot
    cases fuel with
    | zero => omega
    | succ f =>
      rw [freshAux]
      rw [if_neg (by rwa [Nat.add_zero] at hnot)]
      rw [Nat.add_zero]
  | succ t ih =>
    intro fuel j hf hmem hnot
    cases fuel with
    | zero => omega
    | succ f =>
      rw [freshAux]
      have hj : (b ++ "_" ++ natRepr j) ∈ used := by
        have h0 := hmem 0 (by omega)
        rwa [Nat.add_zero] at h0
      rw [if_pos hj]
      have hmem2 : ∀ m, m < t → (b ++ "_" ++ natRepr (j + 1 + m)) ∈ used := by
        intro m hm
        have h2 := hmem (m + 1) (by omega)
        rwa [show j + (m + 1) = j + 1 + m by omega] at h2
      have hnot2 : (b ++ "_" ++ natRepr (j + 1 + t)) ∉ used := by
        rwa [show j + 1 + t = j + (t + 1) by omega]
      have := ih f (j + 1) (by omega) hmem2 hnot2
      rwa [show j + 1 + t = j + (t + 1) by omega] at this

/-- `freshName` on a used-set that holds exactly the names already given to
a same-base run assigns the run's next name. -/
theorem freshName_const_run (b : String) (used : List String) (k : Nat)
    (hU : ∀ s, s ∈ used ↔ ∃ j, j < k ∧ s = nameAt b j)
    (hlen : used.length = k) :
    freshName used b = nameAt b k := by
  unfold freshName
  cases k with
  | zero =>
    have : b ∉ used := fun m => by
      rcases (hU b).mp m with ⟨j, hj, _⟩
      omega
    rw [if_neg this]
    rfl
  | succ n =>
    have hb : b ∈ used := (hU b).mpr ⟨0, by omega, (nameAt_zero b).symm⟩
    rw [if_pos hb, hlen]
    have hmem : ∀ m, m < n → (b ++ "_" ++ natRepr (1 + m)) ∈ used := by
      intro m hm
      exact (hU _).mpr ⟨1 + m, by omega, (nameAt_pos (by omega)).symm⟩
    have hnot : (b ++ "_" ++ natRepr (1 + n)) ∉ used := by
      intro hin
      rcases (hU _).mp hin with ⟨j, hj, he⟩
      have : nameAt b (1 + n) = nameAt b j := by
        rw [nameAt_pos (by omega : 1 + n ≠ 0)]
        exact he
      have := nameAt_inj this
      omega
    have := freshAux_spec used b n (n + 1 + 1) 1 (by omega) hmem hnot
    rw [this, nameAt_pos (by omega : n + 1 ≠ 0)]
    rw [show 1 + n = n + 1 by omega]

theorem splitLoop_names_const_base (base outdir : Path) (allEntries : List Entry)
    (b : String) (hb : b ≠ "") :
    ∀ (rest : List Entry) (fs : FS) (iStart : Nat) (used : List String) (k : Nat),
      (∀ e ∈ rest, sanitize_filename e.title = b) →
      (∀ s, s ∈ used ↔ ∃ j, j < k ∧ s = nameAt b j) →
      used.length = k →
      (splitLoop base outdir allEntries fs iStart used rest).1.map (fun w => w.1) =
        (List.range rest.length).map (fun m => outdir ++ [nameAt b (k + m) ++ ".tex"]) := by
  intro rest
  induction rest with
  | nil => intro fs i used k _ _ _; rfl
  | cons e tl ih =>
    intro fs i used k hall hU hlen
    rw [splitLoop]
    have hs : sanitize_filename e.title = b := hall e (List.mem_cons_self e tl)
    have hbase0 : (if sanitize_filename e.title = "" then fallbackName e
        else sanitize_filename e.title) = b := by
      rw [hs, if_neg hb]
    have hname : freshName used (if sanitize_filename e.title = "" then fallbackName e
        else sanitize_filename e.title) = nameAt b k := by
      rw [hbase0]
      exact freshName_const_run b used k hU hlen
    simp only [List.map_cons, hname]
    have hU2 : ∀ s, s ∈ nameAt b k :: used ↔ ∃ j, j < k + 1 ∧ s = nameAt b j := by
      intro s
      constructor
      · intro hm
        rcases List.mem_cons.mp hm with h | h
        · exact ⟨k, by omega, h⟩
        · rcases (hU s).mp h with ⟨j, hj, he⟩
          exact ⟨j, by omega, he⟩
      · rintro ⟨j, hj, he⟩
        by_cases hjk : j = k
        · rw [he, hjk]
          exact List.mem_cons_self _ _
        · exact List.mem_cons_of_mem _ ((hU s).mpr ⟨j, by omega, he⟩)
    have htl := ih (fsWrite fs (outdir ++ [nameAt b k ++ ".tex"])
        (extract_section_content fs base e allEntries i)) (i + 1) (nameAt b k :: used)
        (k + 1) (fun x hx => hall x (List.mem_cons_of_mem e hx)) hU2 (by simp [hlen])
    rw [htl, List.length_cons, List.range_succ_eq_map, List.map_cons, List.map_map]
    refine congrArg₂ List.cons ?_ ?_
    · rw [Nat.add_zero]
    · refine List.map_congr_left (fun m _ => ?_)
      show outdir ++ [nameAt b (k + 1 + m) ++ ".tex"] =
        outdir ++ [nameAt b (k + (m + 1)) ++ ".tex"]
      rw [show k + 1 + m = k + (m + 1) by omega]

def recDupFirst : Entry := ⟨"chapter", some "1", "a", none, none⟩

def recInterloper : Entry := ⟨"chapter", some "2", "a_1", none, none⟩

def recDupSecond : Entry := ⟨"chapter", some "3", "a", none, none⟩

/-- C6 counterexample: with titles "a", "a_1", "a" the two records whose
titles sanitize to the base "a" receive the filenames `a` and `a_2` — the
second one does NOT get the suffix `_1` as the claim states, because the
interloping record already occupies `a_1`. -/
theorem C6_suffix_order_counterexample :
    sanitize_filename recDupFirst.title = "a" ∧
    sanitize_filename recDupSecond.title = "a" ∧
    (split [] ["p"] [recDupFirst, recInterloper, recDupSecond] ["out"] false).1.map
      (fun w => w.1) =
      [["out", "a.tex"], ["out", "a_1.tex"], ["out", "a_2.tex"]] ∧
    (["out", "a_2.tex"] : Path) ≠ ["out", "a_1.tex"] := by
  refine ⟨by decide, by decide, by decide, by decide⟩

/-- C6 amended: within one split call each record gets its sanitized base
if the base is not yet used in this call, else the base with the smallest
numeric suffix not yet used; in particular when every record of the call
sanitizes to one common base b, the generated filenames are exactly
b, b_1, b_2, ... in order of appearance and are pairwise distinct.
Uniqueness state starts empty at each call (it is not retained across
calls). -/
theorem C6_filename_allocation_amended :
    ∀ (b : String), b ≠ "" →
      ∀ (fs : FS) (base : Path) (data : List Entry) (outdir : Path),
        (∀ e ∈ data, sanitize_filename e.title = b) →
        (split fs base data outdir true).1.map (fun w => w.1) =
          (List.range data.length).map (fun m => outdir ++ [nameAt b m ++ ".tex"]) ∧
        ((split fs base data outdir true).1.map (fun w => w.1)).Nodup := by
  intro b hb fs base data outdir hall
  have heq : (split fs base data outdir true).1.map (fun w => w.1) =
      (List.range data.length).map (fun m => outdir ++ [nameAt b m ++ ".tex"]) := by
    unfold split
    have hU0 : ∀ s : String, s ∈ ([] : List String) ↔ ∃ j, j < 0 ∧ s = nameAt b j := by
      intro s
      constructor
      · intro h
        cases h
      · rintro ⟨j, hj, _⟩
        omega
    have h := splitLoop_names_const_base base outdir data b hb data fs 0 [] 0 hall hU0 rfl
    simpa using h
  refine ⟨heq, ?_⟩
  rw [heq]
  refine List.Nodup.map ?_ (List.nodup_range data.length)
  intro x y hxy
  have h1 : nameAt b x ++ ".tex" = nameAt b y ++ ".tex" := by
    have := List.append_cancel_left hxy
    simpa using this
  have h2 : nameAt b x = nameAt b y := by
    have hd := congrArg String.data h1
    simp only [String.data_append] at hd
    exact stringDataInj (List.append_cancel_right hd)
  exact nameAt_inj h2

def recTriple : Entry := ⟨"chapter", some "1", "t", none, none⟩

/-- C6 amendment witness: three same-titled records get t, t_1, t_2. -/
theorem C6_filename_allocation_amended_witness :
    (split [] ["p"] [recTriple, recTriple, recTriple] ["out"] true).1.map (fun w => w.1) =
      [["out", "t.tex"], ["out", "t_1.tex"], ["out", "t_2.tex"]] ∧
    ((split [] ["p"] [recTriple, recTriple, recTriple] ["out"] true).1.map
      (fun w => w.1)).Nodup := by
  have h := C6_filename_allocation_amended "t" (by decide) [] ["p"]
    [recTriple, recTriple, recTriple] ["out"] (by decide)
  exact ⟨h.1.trans (by decide), h.2⟩

/-! ## C8: idempotence of `split`

The second call reads only paths under the project root; writes outside the
root (and at most creating, never shadowing, files) leave all those reads
unchanged. We prove the agreement lemmas for a single write, lift them over
a write list, and push the agreement through the resolver, the expansion,
the extractor and the split loop. -/

theorem fsWrite_lookup_other (fs : FS) (q : Path) (c : String) (p : Path) (hpq : p ≠ q) :
    fsLookup (fsWrite fs q c) p = fsLookup fs p := by
  unfold fsWrite
  by_cases h : fs.any (fun e => decide (e.1 = q)) = true
  · rw [if_pos h]
    unfold fsLookup
    clear h
    induction fs with
    | nil => rfl
    | cons e tl ih =>
      rw [List.map_cons]
      by_cases he : e.1 = q
      · rw [if_pos he]
        rw [List.find?_cons_of_neg _ (by simp [Ne.symm hpq]),
          List.find?_cons_of_neg _ (by simp [he, Ne.symm hpq])]
        exact ih
      · rw [if_neg he]
        by_cases hep : e.1 = p
        · rw [List.find?_cons_of_pos _ (by simp [hep]),
            List.find?_cons_of_pos _ (by simp [hep])]
        · rw [List.find?_cons_of_neg _ (by simp [hep]),
            List.find?_cons_of_neg _ (by simp [hep])]
          exact ih
  · rw [if_neg h]
    unfold fsLookup
    rw [List.find?_append]
    cases hf : fs.find? (fun e => decide (e.1 = p)) with
    | some e => rfl
    | none =>
      rw [List.find?_cons_of_neg _ (by simp [Ne.symm hpq])]
      rfl

theorem fsWrite_isDir (fs : FS) (q : Path) (c : String) (d : Path)
    (hdq : ¬ (d <+: q ∧ d ≠ q)) :
    isDir (fsWrite fs q c) d = isDir fs d := by
  unfold fsWrite
  by_cases h : fs.any (fun e => decide (e.1 = q)) = true
  · rw [if_pos h]
    unfold isDir
    clear h
    induction fs with
    | nil => rfl
    | cons e tl ih =>
      rw [List.map_cons, List.any_cons, List.any_cons, ih]
      by_cases he : e.1 = q
      · rw [if_pos he, he]
      · rw [if_neg he]
  · rw [if_neg h]
    unfold isDir
    rw [List.any_append]
    have : (([(q, FileData.readable c)] : FS).any
        (fun e => decide (d <+: e.1) && decide (d ≠ e.1))) = false := by
      simp only [List.any_cons, List.any_nil, Bool.or_false]
      rw [Bool.and_eq_false_iff]
      by_cases h1 : d <+: q
      · right
        simp only [decide_eq_false_iff_not, ne_eq, not_not]
        by_contra h2
        exact hdq ⟨h1, by simpa using h2⟩
      · left
        simpa using h1
    rw [this, Bool.or_false]

theorem fsWrite_rglob (fs : FS) (q : Path) (c : String) (base : Path) (nm : String)
    (hq : ¬ base <+: q) :
    rglobFind (fsWrite fs q c) base nm = rglobFind fs base nm := by
  unfold fsWrite
  by_cases h : fs.any (fun e => decide (e.1 = q)) = true
  · rw [if_pos h]
    unfold rglobFind
    clear h
    induction fs with
    | nil => rfl
    | cons e tl ih =>
      rw [List.map_cons]
      by_cases he : e.1 = q
      · have hpred : (decide (base <+: e.1) && decide (e.1 ≠ base) &&
            decide (e.1.getLast? = some nm)) = false := by
          rw [he]
          simp [hq]
        rw [List.find?_cons_of_neg _ (by rw [if_pos he]; simp [hq]),
          List.find?_cons_of_neg _ (by rw [hpred]; simp)]
        exact ih
      · rw [if_neg he]
        cases hpred : (decide (base <+: e.1) && decide (e.1 ≠ base) &&
            decide (e.1.getLast? = some nm)) with
        | true =>
          rw [List.find?_cons_of_pos _ (by exact hpred),
            List.find?_cons_of_pos _ (by exact hpred)]
        | false =>
          rw [List.find?_cons_of_neg _ (by rw [hpred]; simp),
            List.find?_cons_of_neg _ (by rw [hpred]; simp)]
          exact ih
  · rw [if_neg h]
    unfold rglobFind
    rw [List.find?_append]
    cases hf : fs.find? (fun e => decide (base <+: e.1) && decide (e.1 ≠ base) &&
        decide (e.1.getLast? = some nm)) with
    | some e => rfl
    | none =>
      rw [List.find?_cons_of_neg _ (by simp [hq])]
      rfl

/-- Agreement of two filesystems on everything the splitter reads under
`base`. -/
structure FsAgree (base : Path) (fs fsB : FS) : Prop where
  lookup : ∀ p, base <+: p → fsLookup fsB p = fsLookup fs p
  dir : ∀ d, base <+: d → isDir fsB d = isDir fs d
  glob : ∀ nm, rglobFind fsB base nm = rglobFind fs base nm

theorem FsAgree.refl (base : Path) (fs : FS) : FsAgree base fs fs :=
  ⟨fun _ _ => rfl, fun _ _ => rfl, fun _ => rfl⟩

theorem FsAgree.write (base : Path) (fs fsB : FS) (h : FsAgree base fs fsB)
    (q : Path) (c : String) (hq : ¬ base <+: q) :
    FsAgree base (fsWrite fs q c) (fsWrite fsB q c) := by
  refine ⟨?_, ?_, ?_⟩
  · intro p hp
    have hpq : p ≠ q := fun e => hq (e ▸ hp)
    rw [fsWrite_lookup_other fs q c p hpq, fsWrite_lookup_other fsB q c p hpq]
    exact h.lookup p hp
  · intro d hd
    have hdq : ¬ (d <+: q ∧ d ≠ q) := fun ⟨h1, _⟩ => hq (hd.trans h1)
    rw [fsWrite_isDir fs q c d hdq, fsWrite_isDir fsB q c d hdq]
    exact h.dir d hd
  · intro nm
    rw [fsWrite_rglob fs q c base nm hq, fsWrite_rglob fsB q c base nm hq]
    exact h.glob nm

theorem FsAgree.applyWrites (base : Path) (fs : FS) (ws : List (Path × String))
    (hws : ∀ w ∈ ws, ¬ base <+: w.1) :
    FsAgree base fs (LatexSplit.applyWrites fs ws) := by
  suffices h : ∀ (ws : List (Path × String)) (g : FS), (∀ w ∈ ws, ¬ base <+: w.1) →
      FsAgree base g (LatexSplit.applyWrites g ws) by
    exact h ws fs hws
  intro ws
  induction ws with
  | nil => intro g _; exact FsAgree.refl base g
  | cons w tl ih =>
    intro g hw
    have hqw : ¬ base <+: w.1 := hw w (List.mem_cons_self w tl)
    have h1 : FsAgree base g (fsWrite g w.1 w.2) := by
      refine ⟨?_, ?_, ?_⟩
      · intro p hp
        exact fsWrite_lookup_other g w.1 w.2 p (fun e => hqw (e ▸ hp))
      · intro d hd
        exact fsWrite_isDir g w.1 w.2 d (fun hx => hqw (hd.trans hx.1))
      · intro nm
        exact fsWrite_rglob g w.1 w.2 base nm hqw
    have h2 := ih (fsWrite g w.1 w.2) (fun x hx => hw x (List.mem_cons_of_mem w hx))
    exact ⟨fun p hp => (h2.lookup p hp).trans (h1.lookup p hp),
      fun d hd => (h2.dir d hd).trans (h1.dir d hd),
      fun nm => (h2.glob nm).trans (h1.glob nm)⟩

theorem fsWrite_base_none (fs : FS) (q : Path) (c : String) (base : Path)
    (hq : ¬ base <+: q) (hnb : fsLookup fs base = none) :
    fsLookup (fsWrite fs q c) base = none := by
  rw [fsWrite_lookup_other fs q c base (fun e => hq (e ▸ List.prefix_refl base))]
  exact hnb

theorem append_ne_of_ne_nil {base t : Path} (ht : t ≠ []) : base ++ t ≠ base := by
  intro e
  have hlen := congrArg List.length e
  rw [List.length_append] at hlen
  have h0 : t.length = 0 := by omega
  exact ht (List.length_eq_zero.mp h0)

theorem prefix_dropLast {base r : Path} (h : base <+: r) (hne : r ≠ base) :
    base <+: r.dropLast := by
  obtain ⟨t, rfl⟩ := h
  have ht : t ≠ [] := by
    rintro rfl
    simp at hne
  rw [List.dropLast_append_of_ne_nil base ht]
  exact List.prefix_append base t.dropLast

theorem neBase_of_exists {fs : FS} {base p : Path} (hnb : fsLookup fs base = none)
    (hex : fsExists fs p = true) : p ≠ base := by
  rintro rfl
  rw [fsExists, hnb] at hex
  cases hex

theorem rglob_prefix {fs : FS} {base : Path} {nm : String} {p : Path}
    (h : rglobFind fs base nm = some p) : base <+: p := by
  unfold rglobFind at h
  cases hf : fs.find? (fun e => decide (base <+: e.1) && decide (e.1 ≠ base) &&
      decide (e.1.getLast? = some nm)) with
  | none => rw [hf] at h; cases h
  | some e =>
    rw [hf] at h
    have hp : e.1 = p := by simpa using h
    have hpred := List.find?_some hf
    simp only [Bool.and_eq_true, decide_eq_true_eq] at hpred
    exact hp ▸ hpred.1.1

/-- Every path the resolver returns lies under the project root. -/
theorem find_prefix {fs : FS} {base : Path} {fp : String} {rel : Option Path} {p : Path}
    (h : find_file_path fs base fp rel = some p)
    (hrel : ∀ r, rel = some r → base <+: r ∧ r ≠ base) : base <+: p := by
  unfold find_file_path at h
  by_cases h1 : fsExists fs (base ++ pathComps (normSeps fp)) = true
  · simp only [h1, if_true] at h
    cases h
    exact List.prefix_append base _
  · rw [Bool.not_eq_true] at h1
    simp only [h1, Bool.false_eq_true, if_false] at h
    cases hrelv : rel with
    | none =>
      rw [hrelv] at h
      simp only at h
      by_cases hsl : containsChar (normSeps fp) '/' = true
      · simp [hsl] at h
      · rw [Bool.not_eq_true] at hsl
        simp only [hsl, Bool.false_eq_true, if_false] at h
        exact rglob_prefix h
    | some r =>
      rw [hrelv] at h
      simp only at h
      obtain ⟨hr1, hr2⟩ := hrel r hrelv
      by_cases hd : isDir fs r = true
      · simp only [hd, if_true] at h
        by_cases h2 : fsExists fs (r.dropLast ++ pathComps (normSeps fp)) = true
        · simp only [h2, if_true] at h
          cases h
          exact (prefix_dropLast hr1 hr2).trans (List.prefix_append _ _)
        · rw [Bool.not_eq_true] at h2
          simp only [h2, Bool.false_eq_true, if_false] at h
          by_cases hsl : containsChar (normSeps fp) '/' = true
          · simp [hsl] at h
          · rw [Bool.not_eq_true] at hsl
            simp only [hsl, Bool.false_eq_true, if_false] at h
            exact rglob_prefix h
      · rw [Bool.not_eq_true] at hd
        simp only [hd, Bool.false_eq_true, if_false] at h
        by_cases hsl : containsChar (normSeps fp) '/' = true
        · simp [hsl] at h
        · rw [Bool.not_eq_true] at hsl
          simp only [hsl, Bool.false_eq_true, if_false] at h
          exact rglob_prefix h

/-- Agreeing filesystems resolve identically (for a current-file argument
under the root). -/
theorem find_congr {base : Path} {fs fsB : FS} (h : FsAgree base fs fsB)
    (fp : String) (rel : Option Path)
    (hrel : ∀ r, rel = some r → base <+: r ∧ r ≠ base) :
    find_file_path fsB base fp rel = find_file_path fs base fp rel := by
  unfold find_file_path
  simp only
  have hdir : fsExists fsB (base ++ pathComps (normSeps fp)) =
      fsExists fs (base ++ pathComps (normSeps fp)) := by
    unfold fsExists
    rw [h.lookup _ (List.prefix_append base _)]
  rw [hdir]
  by_cases hex : fsExists fs (base ++ pathComps (normSeps fp)) = true
  · simp only [hex, if_true]
  · rw [Bool.not_eq_true] at hex
    simp only [hex, Bool.false_eq_true, if_false]
    cases hrelv : rel with
    | none =>
      simp only
      rw [h.glob]
    | some r =>
      simp only
      obtain ⟨hr1, hr2⟩ := hrel r hrelv
      rw [h.dir r hr1]
      by_cases hd : isDir fs r = true
      · simp only [hd, if_true]
        have hrp : fsExists fsB (r.dropLast ++ pathComps (normSeps fp)) =
            fsExists fs (r.dropLast ++ pathComps (normSeps fp)) := by
          unfold fsExists
          rw [h.lookup _ ((prefix_dropLast hr1 hr2).trans (List.prefix_append _ _))]
        rw [hrp]
        by_cases h2 : fsExists fs (r.dropLast ++ pathComps (normSeps fp)) = true
        · simp only [h2, if_true]
        · rw [Bool.not_eq_true] at h2
          simp only [h2, Bool.false_eq_true, if_false]
          rw [h.glob]
      · rw [Bool.not_eq_true] at hd
        simp only [hd, Bool.false_eq_true, if_false]
        rw [h.glob]

theorem expandFold_congr {base : Path} {fs fsB : FS} (fuel : Nat) (cur : Path)
    (hAux : ∀ (g : List String) (l : String),
      expandAux fsB base fuel g l cur = expandAux fs base fuel g l cur) :
    ∀ (ls : List String) (a g : List String),
      (ls.foldl (fun acc l =>
        let r := expandAux fsB base fuel acc.2 l cur
        (acc.1 ++ r.1, r.2)) (a, g)) =
      (ls.foldl (fun acc l =>
        let r := expandAux fs base fuel acc.2 l cur
        (acc.1 ++ r.1, r.2)) (a, g)) := by
  intro ls
  induction ls with
  | nil => intro a g; rfl
  | cons l tl ihl =>
    intro a g
    rw [List.foldl_cons, List.foldl_cons]
    simp only [hAux g l]
    exact ihl _ _

theorem expandAux_congr {base : Path} {fs fsB : FS} (h : FsAgree base fs fsB)
    (hnb : fsLookup fs base = none) :
    ∀ (fuel : Nat) (guard : List String) (line : String) (cur : Path),
      base <+: cur → cur ≠ base →
      expandAux fsB base fuel guard line cur = expandAux fs base fuel guard line cur := by
  intro fuel
  induction fuel with
  | zero => intro g l c _ _; rfl
  | succ f ih =>
    intro g line cur hc1 hc2
    rw [expandAux, expandAux]
    cases hfa : findInputArg line with
    | none => rfl
    | some orig =>
      simp only
      by_cases hg : texName orig ∈ g
      · rw [if_pos hg, if_pos hg]
      · rw [if_neg hg, if_neg hg]
        have hfind := find_congr h (texName orig) (some cur)
          (fun r hr => by cases hr; exact ⟨hc1, hc2⟩)
        rw [hfind]
        cases hfp : find_file_path fs base (texName orig) (some cur) with
        | none => rfl
        | some p =>
          simp only
          have hp1 : base <+: p := find_prefix hfp
            (fun r hr => by cases hr; exact ⟨hc1, hc2⟩)
          have hp2 : p ≠ base := neBase_of_exists hnb (find_file_path_exists hfp)
          rw [h.lookup p hp1]
          cases hlk : fsLookup fs p with
          | none => rfl
          | some fd =>
            cases fd with
            | readable text =>
              simp only
              rw [expandFold_congr f p (fun gg l => ih gg l p hp1 hp2)]
            | unreadable m => rfl

theorem expandLines_congr {base : Path} {fs fsB : FS} (h : FsAgree base fs fsB)
    (hnb : fsLookup fs base = none) (fuel : Nat) (g : List String) (ls : List String)
    (cur : Path) (hc1 : base <+: cur) (hc2 : cur ≠ base) :
    expandLines fsB base fuel g ls cur = expandLines fs base fuel g ls cur := by
  unfold expandLines
  exact expandFold_congr fuel cur (fun gg l => expandAux_congr h hnb fuel gg l cur hc1 hc2)
    ls [] g

theorem extract_congr {base : Path} {fs fsB : FS} (h : FsAgree base fs fsB)
    (hnb : fsLookup fs base = none) (entry : Entry) (allEntries : List Entry) (idx : Nat) :
    extract_section_content fsB base entry allEntries idx =
      extract_section_content fs base entry allEntries idx := by
  unfold extract_section_content
  by_cases hc : ¬ strTruthy entry.file ∨ entry.line = none
  · rw [if_pos hc, if_pos hc]
  · rw [if_neg hc, if_neg hc]
    simp only
    have hdpre : base <+: base ++ pathComps (optStr entry.file) :=
      List.prefix_append base _
    have hexeq : fsExists fsB (base ++ pathComps (optStr entry.file)) =
        fsExists fs (base ++ pathComps (optStr entry.file)) := by
      unfold fsExists
      rw [h.lookup _ hdpre]
    rw [hexeq]
    by_cases hex : fsExists fs (base ++ pathComps (optStr entry.file)) = true
    · simp only [hex, if_true]
      rw [h.lookup _ hdpre]
      cases hlk : fsLookup fs (base ++ pathComps (optStr entry.file)) with
      | none => rfl
      | some fd =>
        cases fd with
        | readable text =>
          simp only
          have hne : base ++ pathComps (optStr entry.file) ≠ base :=
            neBase_of_exists hnb hex
          by_cases hrange : (entry.line.getD 0 = 0 ∨
              (splitLines text).length < entry.line.getD 0)
          · rw [if_pos hrange, if_pos hrange]
          · rw [if_neg hrange, if_neg hrange]
            rw [expandLines_congr h hnb 11 [] _ _ hdpre hne]
        | unreadable m => rfl
    · rw [Bool.not_eq_true] at hex
      simp only [hex, Bool.false_eq_true, if_false]
      rw [find_congr h (optStr entry.file) none (fun r hr => by cases hr)]
      cases hfp : find_file_path fs base (optStr entry.file) none with
      | none => rfl
      | some p =>
        simp only
        have hp1 : base <+: p := find_prefix hfp (fun r hr => by cases hr)
        have hp2 : p ≠ base := neBase_of_exists hnb (find_file_path_exists hfp)
        rw [h.lookup p hp1]
        cases hlk : fsLookup fs p with
        | none => rfl
        | some fd =>
          cases fd with
          | readable text =>
            simp only
            by_cases hrange : (entry.line.getD 0 = 0 ∨
                (splitLines text).length < entry.line.getD 0)
            · rw [if_pos hrange, if_pos hrange]
            · rw [if_neg hrange, if_neg hrange]
              rw [expandLines_congr h hnb 11 [] _ _ hp1 hp2]
          | unreadable m => rfl

theorem splitLoop_writes_shape (base outdir : Path) (allEntries : List Entry) :
    ∀ (rest : List Entry) (fs : FS) (i : Nat) (used : List String) (w : Path × String),
      w ∈ (splitLoop base outdir allEntries fs i used rest).1 →
      ∃ f, w.1 = outdir ++ [f] := by
  intro rest
  induction rest with
  | nil =>
    intro fs i used w hw
    cases hw
  | cons e tl ih =>
    intro fs i used w hw
    rw [splitLoop] at hw
    rcases List.mem_cons.mp hw with h | h
    · exact ⟨_, by rw [h]⟩
    · exact ih _ _ _ w h

theorem splitLoop_congr {base outdir : Path} (allEntries : List Entry)
    (hout : ∀ f : String, ¬ base <+: outdir ++ [f]) :
    ∀ (rest : List Entry) (fs fsB : FS) (i : Nat) (used : List String),
      FsAgree base fs fsB → fsLookup fs base = none →
      splitLoop base outdir allEntries fsB i used rest =
        splitLoop base outdir allEntries fs i used rest := by
  intro rest
  induction rest with
  | nil => intro fs fsB i used _ _; rfl
  | cons e tl ih =>
    intro fs fsB i used h hnb
    have hq : ¬ base <+: outdir ++
        [(freshName used (if sanitize_filename e.title = "" then fallbackName e
          else sanitize_filename e.title)) ++ ".tex"] := hout _
    have hrec := ih
      (fsWrite fs (outdir ++ [(freshName used (if sanitize_filename e.title = ""
        then fallbackName e else sanitize_filename e.title)) ++ ".tex"])
        (extract_section_content fs base e allEntries i))
      (fsWrite fsB (outdir ++ [(freshName used (if sanitize_filename e.title = ""
        then fallbackName e else sanitize_filename e.title)) ++ ".tex"])
        (extract_section_content fs base e allEntries i))
      (i + 1)
      ((freshName used (if sanitize_filename e.title = "" then fallbackName e
        else sanitize_filename e.title)) :: used)
      (FsAgree.write base fs fsB h _ _ hq)
      (fsWrite_base_none fs _ _ base hq hnb)
    rw [splitLoop, splitLoop]
    rw [extract_congr h hnb e allEntries i, hrec]

/-- C8 amended: two identical split calls produce identical writes and the
same returned title-to-path mapping, provided the output files do not land
inside the project tree (no output path extends the base path, and no file
sits at the base path itself). Reads never mutate the filesystem and no
state is shared between calls in the model; only output files shadowing
later reads can break idempotence. -/
theorem C8_idempotence_amended :
    ∀ (fs : FS) (base : Path) (data : List Entry) (outdir : Path) (inc : Bool),
      (∀ f : String, ¬ base <+: outdir ++ [f]) →
      fsLookup fs base = none →
      split (applyWrites fs (split fs base data outdir inc).1) base data outdir inc =
        split fs base data outdir inc := by
  intro fs base data outdir inc hout hnb
  have hws : ∀ w ∈ (split fs base data outdir inc).1, ¬ base <+: w.1 := by
    intro w hw
    obtain ⟨f, hf⟩ := splitLoop_writes_shape base outdir (filterRecords inc data)
      (filterRecords inc data) fs 0 [] w hw
    rw [hf]
    exact hout f
  have hagree := FsAgree.applyWrites base fs _ hws
  unfold split
  exact splitLoop_congr (filterRecords inc data) hout (filterRecords inc data) fs _ 0 []
    hagree hnb

def recOverlap : Entry := ⟨"chapter", some "1", "ch1", some "ch1.tex", some 2⟩

def fsOverlap : FS :=
  [(["p", "ch1.tex"], FileData.readable "junk\n\\chapter\x7bX\x7d")]

/-- C8 counterexample: with the output directory equal to the project root,
the first call overwrites the source file `ch1.tex` with the extracted
content; the second call then reads the truncated file, finds line 2 out of
range, and writes an error placeholder instead — the two calls' outputs are
not byte-identical. -/
theorem C8_idempotence_counterexample :
    (split (applyWrites fsOverlap (split fsOverlap ["p"] [recOverlap] ["p"] false).1)
        ["p"] [recOverlap] ["p"] false).1 ≠
      (split fsOverlap ["p"] [recOverlap] ["p"] false).1 := by
  decide

def recIdem : Entry := ⟨"chapter", some "1", "Y", some "main.tex", some 1⟩

def fsIdem : FS :=
  [(["p", "main.tex"], FileData.readable "\\chapter\x7bY\x7d\nbody")]

/-- C8 amendment witness: with the output directory outside the project
root, a second identical call reproduces the first call's result exactly. -/
theorem C8_idempotence_amended_witness :
    split (applyWrites fsIdem (split fsIdem ["p"] [recIdem] ["out"] false).1)
        ["p"] [recIdem] ["out"] false =
      split fsIdem ["p"] [recIdem] ["out"] false := by
  refine C8_idempotence_amended fsIdem ["p"] [recIdem] ["out"] false ?_ (by decide)
  intro f hpre
  obtain ⟨t, ht⟩ := hpre
  have ht2 : "p" :: t = "out" :: [f] := ht
  injection ht2 with h1 h2
  exact absurd h1 (by decide)

end LatexSplit
